import Mathlib

/-!
Verification of the wishlist manager's core model (`src/App.tsx`).

The embedding below translates the data model and the state-updating
functions of the single React component into pure Lean functions.

Conventions of the embedding:

* JavaScript numbers are modelled by `JNum`: either `NaN` or a rational.
  Binary-float rounding of elementary arithmetic is abstracted away
  (amounts and rates are rationals); the explicit decimal rounding the
  code performs (`toFixed(2)`) is modelled exactly.
* `price.toFixed(2)` produces a decimal string that every caller of
  `convertPrice` immediately feeds to `parseFloat`; we model the numeric
  value of that string, i.e. rounding to a whole number of hundredths
  (ties away from the smaller value, as in ECMAScript `toFixed`).
* The exchange-rate table is a partial map `String → Option ℚ`; the code
  guards with JavaScript truthiness (`!rates[c]`), so both an absent key
  and a rate of `0` take the fallback branch.
* `parseFloat` on form input is modelled for plain decimal literals
  (optional sign, digits, one decimal point); any other text yields `NaN`,
  as `parseFloat` does for text that does not start with a number.
* React state setters are modelled by returning the new state.
-/

namespace WishApp

/-- A JavaScript number: `NaN` or a (finite) numeric value, as a rational. -/
inductive JNum where
  | nan : JNum
  | num (q : ℚ) : JNum
  deriving DecidableEq, Repr

/-- JavaScript `+` on numbers: `NaN` propagates. -/
def jadd : JNum → JNum → JNum
  | JNum.num a, JNum.num b => JNum.num (a + b)
  | _, _ => JNum.nan

/-- JavaScript `-` on numbers: `NaN` propagates. -/
def jsub : JNum → JNum → JNum
  | JNum.num a, JNum.num b => JNum.num (a - b)
  | _, _ => JNum.nan

/-- JavaScript `*` on numbers: `NaN` propagates. -/
def jmul : JNum → JNum → JNum
  | JNum.num a, JNum.num b => JNum.num (a * b)
  | _, _ => JNum.nan

/-- Sum of a list of JavaScript numbers. -/
def jsum (l : List JNum) : JNum := l.foldr jadd (JNum.num 0)

/-- Rounding to a whole number of hundredths, with ties going to the larger
candidate — the value of `x.toFixed(2)` for a finite `x`
(ECMAScript `Number.prototype.toFixed`: the integer `n` with `n / 10^2 - x`
closest to zero, the larger `n` on ties, which is `round` half-up). -/
def round2 (q : ℚ) : ℚ := (⌊q * 100 + 1 / 2⌋ : ℤ) / 100

/-- `x.toFixed(2)` followed by `parseFloat` at the call sites:
`NaN` stays `NaN` (the string `"NaN"` parses back to `NaN`),
a finite value is rounded to hundredths. -/
def round2J : JNum → JNum
  | JNum.nan => JNum.nan
  | JNum.num q => JNum.num (round2 q)

/-- JavaScript truthiness of a rate-table lookup: `undefined` (absent key)
and `0` are falsy. (`NaN` cannot occur in the modelled table.) -/
def rateTruthy (r : Option ℚ) : Bool :=
  match r with
  | none => false
  | some q => decide ¬(q = 0)

/-- The rate table as seen by `money.js` after `fx.base = 'USD'`:
`getRate` begins with `rates[fx.base] = 1`, so the base currency's rate is
forced to `1`; other currencies read the fetched table (`getD 0` is never
reached under the caller's truthiness guard). -/
def fxRates (rates : String → Option ℚ) (c : String) : ℚ :=
  if c = "USD" then 1 else (rates c).getD 0

/-- `money.js` `getRate(to, from)` with `fx.base = 'USD'`:
if `from` is the base, `rates[to]`; if `to` is the base, `1 / rates[from]`;
otherwise `rates[to] * (1 / rates[from])`. -/
def getRate (rates : String → Option ℚ) (toC fromC : String) : ℚ :=
  if fromC = "USD" then fxRates rates toC
  else if toC = "USD" then 1 / fxRates rates fromC
  else fxRates rates toC * (1 / fxRates rates fromC)

/-- `convertPrice` from `App.tsx`:
`if (!rates[from] || !rates[to]) return price.toFixed(2);`
then `fx(price).from(from).to(to)` (= `price * getRate(to, from)`) and
`toFixed(2)`. The source returns the decimal string; we model its numeric
value, which is what `parseFloat` yields at every call site. The
`try/catch` is dead after the guard: `getRate` cannot throw once both
rates are truthy. -/
def convertPrice (rates : String → Option ℚ) (price : JNum)
    (fromCurrency toCurrency : String) : JNum :=
  if !rateTruthy (rates fromCurrency) || !rateTruthy (rates toCurrency) then
    round2J price
  else
    round2J (jmul price (JNum.num (getRate rates toCurrency fromCurrency)))

/-- Digit-run parser: accumulated value, number of digits consumed, rest. -/
def parseDigits : List Char → Nat → Nat → Nat × Nat × List Char
  | [], acc, cnt => (acc, cnt, [])
  | c :: cs, acc, cnt =>
    if c.isDigit then parseDigits cs (10 * acc + (c.toNat - 48)) (cnt + 1)
    else (acc, cnt, c :: cs)

/-- JavaScript `parseFloat` on the plain decimal literals the price inputs
produce: optional leading whitespace, optional sign, digits with at most one
decimal point (the longest such leading run). Text that does not begin with
a digit or a point-digit sequence yields `NaN`. Exponent notation and
`Infinity` are outside the modelled fragment. -/
def jsParseFloat (s : String) : JNum :=
  let cs := s.data.dropWhile fun c => c = ' ' ∨ c = '\t' ∨ c = '\n' ∨ c = '\r'
  let signRest : ℚ × List Char :=
    match cs with
    | '-' :: r => (-1, r)
    | '+' :: r => (1, r)
    | r => (1, r)
  let ipart := parseDigits signRest.2 0 0
  let fpart : Nat × Nat × List Char :=
    match ipart.2.2 with
    | '.' :: r => parseDigits r 0 0
    | r => (0, 0, r)
  if ipart.2.1 = 0 ∧ fpart.2.1 = 0 then JNum.nan
  else JNum.num (signRest.1 * ((ipart.1 : ℚ) + (fpart.1 : ℚ) / (10 : ℚ) ^ fpart.2.1))

/-- `WishlistItem` from `App.tsx`. `parentId : string | null | undefined` is
`Option String` (`null` and `undefined` behave identically under the strict
comparisons the code performs); `isRequired` is always written as a real
boolean by the item forms. -/
structure WishlistItem where
  id : String
  name : String
  price : JNum
  currency : String
  link : String
  parentId : Option String
  isRequired : Bool
  deriving DecidableEq, Repr

/-- `Person` from `App.tsx`. -/
structure Person where
  id : String
  name : String
  items : List WishlistItem
  deriving DecidableEq, Repr

/-- `EditingItem` from `App.tsx`: a `WishlistItem` whose price is still the
raw text of the form, plus the currency selector value. -/
structure EditingItem where
  id : String
  name : String
  price : String
  currency : String
  link : String
  parentId : Option String
  isRequired : Bool
  tempCurrency : String
  deriving DecidableEq, Repr

/-- The `newItem` form state from `App.tsx` (price still raw text). -/
structure NewItemForm where
  name : String
  price : String
  currency : String
  link : String
  parentId : Option String
  isRequired : Bool
  deriving DecidableEq, Repr

/-- `calculateGroupTotal` from `App.tsx`: find the parent (`0` if absent),
start from its converted price, and `+=` the converted price of every item
whose `parentId` is the given id and whose `isRequired` flag is truthy.
`parseFloat(convertPrice(...))` is `convertPrice` in this embedding. -/
def calculateGroupTotal (rates : String → Option ℚ) (displayCurrency : String)
    (items : List WishlistItem) (parentId : String) : JNum :=
  match items.find? (fun it => decide (it.id = parentId)) with
  | none => JNum.num 0
  | some parent =>
    let total := convertPrice rates parent.price parent.currency displayCurrency
    let children :=
      items.filter fun it => decide (it.parentId = some parentId) && it.isRequired
    children.foldl
      (fun acc c => jadd acc (convertPrice rates c.price c.currency displayCurrency))
      total

/-- `addItem` from `App.tsx`: append the parsed form to the matching person's
items. `newId` stands for the `crypto.randomUUID()` call. -/
def addItem (people : List Person) (personId : String) (newId : String)
    (form : NewItemForm) : List Person :=
  people.map fun person =>
    if person.id = personId then
      { person with
        items := person.items ++
          [{ id := newId, name := form.name, price := jsParseFloat form.price,
             currency := form.currency, link := form.link,
             parentId := form.parentId, isRequired := form.isRequired }] }
    else person

/-- `removeItem` from `App.tsx`: on the matching person, keep exactly the
items whose id is not `itemId` and whose `parentId` is not `itemId`. -/
def removeItem (people : List Person) (personId itemId : String) : List Person :=
  people.map fun person =>
    if person.id = personId then
      { person with
        items := person.items.filter fun item =>
          !decide (item.id = itemId) && !decide (item.parentId = some itemId) }
    else person

/-- `saveEditedItem` from `App.tsx`: no-op when `editingItem` or
`editingItemId` is falsy (absent, or the empty string); otherwise replace
the matching person's matching item by the editing form, with the price text
parsed (`parseFloat`) and the currency taken from `tempCurrency`. -/
def saveEditedItem (people : List Person) (personId : String)
    (editingItemId : Option String) (editingItem : Option EditingItem) :
    List Person :=
  match editingItem, editingItemId with
  | some e, some eid =>
    if eid = "" then people
    else
      people.map fun person =>
        if person.id = personId then
          { person with
            items := person.items.map fun item =>
              if item.id = eid then
                { id := e.id, name := e.name, price := jsParseFloat e.price,
                  currency := e.tempCurrency, link := e.link,
                  parentId := e.parentId, isRequired := e.isRequired }
              else item }
        else person
  | _, _ => people

/-- The part of the `@hello-pangea/dnd` drop result `handleDragEnd` reads:
`result.source.index` and `result.destination?.index`
(`destination` is `null` for a cancelled drop). -/
structure DragResult where
  source : Nat
  destination : Option Nat
  deriving DecidableEq, Repr

/-- The two `splice` calls of `handleDragEnd`:
`items.splice(src, 1)` removes the element at `src` (when in range), and
`items.splice(dst, 0, x)` re-inserts it, `splice` clamping the insertion
position to the new length. When `src` is out of range the JavaScript code
would splice `undefined` into a `WishlistItem[]`; that degenerate state is
not representable here and is modelled as `none`. -/
def spliceMove (items : List WishlistItem) (src dst : Nat) :
    Option (List WishlistItem) :=
  match items[src]? with
  | none => none
  | some x => some ((items.eraseIdx src).insertIdx (min dst (items.length - 1)) x)

/-- Traverse a list with a fallible function; `none` as soon as any element
fails. (Used to model `handleDragEnd`, whose only failure mode is the
unrepresentable out-of-range splice of `spliceMove`.) -/
def mapOption (f : α → Option β) : List α → Option (List β)
  | [] => some []
  | a :: l =>
    match f a, mapOption f l with
    | some b, some bs => some (b :: bs)
    | _, _ => none

/-- `handleDragEnd` from `App.tsx`: return the state unchanged when the drop
was cancelled (`!result.destination`); otherwise move the matching person's
item from `result.source.index` to `result.destination.index`. -/
def handleDragEnd (people : List Person) (result : DragResult)
    (personId : String) : Option (List Person) :=
  match result.destination with
  | none => some people
  | some dst =>
    mapOption
      (fun person =>
        if person.id = personId then
          (spliceMove person.items result.source dst).map
            fun its => { person with items := its }
        else some person)
      people

/-- The `sortDirection` state of `App.tsx`. -/
inductive SortDir where
  | asc : SortDir
  | desc : SortDir
  deriving DecidableEq, Repr

/-- `setSortDirection(sortDirection === 'asc' ? 'desc' : 'asc')`. -/
def toggleDir : SortDir → SortDir
  | SortDir.asc => SortDir.desc
  | SortDir.desc => SortDir.asc

/-- The sort key of `sortItemsByPrice`:
`parseFloat(convertPrice(item.price, item.currency, displayCurrency))`. -/
def convKey (rates : String → Option ℚ) (displayCurrency : String)
    (it : WishlistItem) : JNum :=
  convertPrice rates it.price it.currency displayCurrency

/-- `Array.prototype.sort` keeps `a` no later than `b` exactly when the
comparator value is not positive; a `NaN` comparator value is treated as
`+0` (ECMAScript `SortCompare`), i.e. as a tie. -/
def cmpLe : JNum → Bool
  | JNum.nan => true
  | JNum.num d => decide (d ≤ 0)

/-- The comparator of `sortItemsByPrice`
(`asc ? priceA - priceB : priceB - priceA`), turned into the
"sorts-no-later-than" boolean relation that a stable sort realises. -/
def sortLe (rates : String → Option ℚ) (displayCurrency : String)
    (dir : SortDir) (a b : WishlistItem) : Bool :=
  match dir with
  | SortDir.asc =>
    cmpLe (jsub (convKey rates displayCurrency a) (convKey rates displayCurrency b))
  | SortDir.desc =>
    cmpLe (jsub (convKey rates displayCurrency b) (convKey rates displayCurrency a))

/-- `sortItemsByPrice` from `App.tsx`: stably sort the matching person's
items by the comparator (`Array.prototype.sort` is stable, realised here by
`List.insertionSort`), then toggle the direction state. Returns the new
`(people, sortDirection)` pair. -/
def sortItemsByPrice (rates : String → Option ℚ) (displayCurrency : String)
    (people : List Person) (sortDirection : SortDir) (personId : String) :
    List Person × SortDir :=
  (people.map fun person =>
    if person.id = personId then
      { person with
        items := person.items.insertionSort
          fun a b => sortLe rates displayCurrency sortDirection a b = true }
    else person,
   toggleDir sortDirection)

/-- One click of the sort button, as a transformer of the
`(people, sortDirection)` state. -/
def sortStep (rates : String → Option ℚ) (displayCurrency : String)
    (personId : String) (s : List Person × SortDir) : List Person × SortDir :=
  sortItemsByPrice rates displayCurrency s.1 s.2 personId

/-! ### The concrete scenario of the specification (person "Alice") -/

/-- Item A of the Alice scenario: 100 USD, top level. -/
def itemA : WishlistItem :=
  { id := "A", name := "Bike", price := JNum.num 100, currency := "USD",
    link := "", parentId := none, isRequired := false }

/-- Item B of the Alice scenario: 20 USD, child of A, required. -/
def itemB : WishlistItem :=
  { id := "B", name := "Helmet", price := JNum.num 20, currency := "USD",
    link := "", parentId := some "A", isRequired := true }

/-- Item C of the Alice scenario: 5 USD, child of A, not required. -/
def itemC : WishlistItem :=
  { id := "C", name := "Bell", price := JNum.num 5, currency := "USD",
    link := "", parentId := some "A", isRequired := false }

/-- The rate table `{USD: 1}` of the scenario. -/
def ratesUSD : String → Option ℚ := fun c => if c = "USD" then some 1 else none

/-- Alice's item collection. -/
def aliceItems : List WishlistItem := [itemA, itemB, itemC]

/-- The person "Alice". -/
def alice : Person := { id := "p1", name := "Alice", items := aliceItems }

/-! ### Arithmetic helper lemmas -/

/-- The numeric value of a `JNum` (`0` for `NaN`; only used where `NaN` is
excluded). -/
def jval : JNum → ℚ
  | JNum.nan => 0
  | JNum.num q => q

theorem jadd_num_zero (x : JNum) : jadd x (JNum.num 0) = x := by
  cases x <;> simp [jadd]

theorem jadd_assoc (x y z : JNum) : jadd (jadd x y) z = jadd x (jadd y z) := by
  cases x <;> cases y <;> cases z <;> simp [jadd, add_assoc]

theorem foldl_jadd (l : List JNum) : ∀ init, l.foldl jadd init = jadd init (jsum l) := by
  induction l with
  | nil => intro init; simp [jsum, jadd_num_zero]
  | cons a l ih =>
    intro init
    simp only [List.foldl_cons, ih, jsum, List.foldr_cons]
    rw [jadd_assoc]

theorem round2_cents (n : ℤ) : round2 ((n : ℚ) / 100) = (n : ℚ) / 100 := by
  rw [round2, div_mul_cancel₀ _ (by norm_num : (100 : ℚ) ≠ 0), Int.floor_int_add]
  norm_num

/-- When either rate lookup is falsy, `convertPrice` takes the fallback
branch and returns the rounded input. -/
theorem convertPrice_not_truthy {rates : String → Option ℚ} {c₁ c₂ : String}
    (h : rateTruthy (rates c₁) = false ∨ rateTruthy (rates c₂) = false)
    (p : JNum) : convertPrice rates p c₁ c₂ = round2J p := by
  rcases h with h | h <;> simp [convertPrice, h]

/-- An absent currency is falsy. -/
theorem convertPrice_missing {rates : String → Option ℚ} {c₁ c₂ : String}
    (h : rates c₁ = none ∨ rates c₂ = none) (p : JNum) :
    convertPrice rates p c₁ c₂ = round2J p := by
  refine convertPrice_not_truthy ?_ p
  rcases h with h | h
  · exact Or.inl (by rw [h]; rfl)
  · exact Or.inr (by rw [h]; rfl)

/-- A zero rate is falsy. -/
theorem convertPrice_zero_rate {rates : String → Option ℚ} {c₁ c₂ : String}
    (h : rates c₁ = some 0 ∨ rates c₂ = some 0) (p : JNum) :
    convertPrice rates p c₁ c₂ = round2J p := by
  refine convertPrice_not_truthy ?_ p
  rcases h with h | h
  · exact Or.inl (by rw [h]; simp [rateTruthy])
  · exact Or.inr (by rw [h]; simp [rateTruthy])

/-- Converting a numeric amount from a currency to itself only rounds it. -/
theorem convertPrice_self (rates : String → Option ℚ) (c : String) (a : ℚ) :
    convertPrice rates (JNum.num a) c c = JNum.num (round2 a) := by
  cases hr : rates c with
  | none => rw [convertPrice_missing (Or.inl hr)]; rfl
  | some r =>
    by_cases hz : r = 0
    · rw [convertPrice_zero_rate (Or.inl (hz ▸ hr))]; rfl
    · have ht : rateTruthy (rates c) = true := by simp [hr, rateTruthy, hz]
      have hone : getRate rates c c = 1 := by
        by_cases hUSD : c = "USD"
        · simp [getRate, fxRates, hUSD]
        · simp only [getRate, fxRates, if_neg hUSD, hr, Option.getD_some]
          rw [mul_one_div, div_self hz]
      simp [convertPrice, ht, hone, jmul, round2J]

/-- Converting a numeric amount always yields a numeric result. -/
theorem convertPrice_num (rates : String → Option ℚ) (a : ℚ) (c₁ c₂ : String) :
    convertPrice rates (JNum.num a) c₁ c₂ =
      JNum.num (jval (convertPrice rates (JNum.num a) c₁ c₂)) := by
  rw [convertPrice]
  by_cases h : (!rateTruthy (rates c₁) || !rateTruthy (rates c₂)) = true <;>
    simp [h, round2J, jmul, jval]

theorem count_filter_bool {α : Type _} [DecidableEq α] (p : α → Bool)
    (l : List α) (x : α) :
    (l.filter p).count x = if p x = true then l.count x else 0 := by
  by_cases h : p x = true
  · rw [if_pos h, List.count_filter h]
  · rw [if_neg h, List.count_eq_zero]
    intro hx
    exact h (List.of_mem_filter hx)

/-! ### Claim theorems -/

/-- C1. `calculateGroupTotal` returns `0` when no item has the given id;
otherwise it returns the found parent's converted price plus the sum of the
converted prices of exactly the items whose `parentId` is the given id and
whose `isRequired` flag is true; and on the Alice scenario with display
currency USD and rate table `{USD: 1}` it returns `120`. -/
theorem groupTotal_correct (rates : String → Option ℚ) (disp : String)
    (items : List WishlistItem) (pid : String) :
    ((∀ it ∈ items, ¬ it.id = pid) →
        calculateGroupTotal rates disp items pid = JNum.num 0) ∧
    (∀ parent, items.find? (fun it => decide (it.id = pid)) = some parent →
        calculateGroupTotal rates disp items pid =
          jadd (convertPrice rates parent.price parent.currency disp)
            (jsum ((items.filter fun it =>
                decide (it.parentId = some pid) && it.isRequired).map
              fun c => convertPrice rates c.price c.currency disp))) ∧
    calculateGroupTotal ratesUSD "USD" aliceItems "A" = JNum.num 120 := by
  refine ⟨?_, ?_, ?_⟩
  · intro h
    rw [calculateGroupTotal, List.find?_eq_none.mpr (by simpa using h)]
  · intro parent hp
    rw [calculateGroupTotal, hp]
    simp only [← List.foldl_map]
    rw [foldl_jadd]
  · simp only [calculateGroupTotal, aliceItems, itemA, itemB, itemC, ratesUSD,
      List.find?, List.filter, convertPrice, rateTruthy, getRate, fxRates,
      round2J, jmul, jadd, List.foldl]
    norm_num [round2]

/-- Witness for C1: the parent branch, instantiated on the Alice scenario. -/
theorem groupTotal_correct_witness :
    calculateGroupTotal ratesUSD "USD" aliceItems "A" =
      jadd (convertPrice ratesUSD itemA.price itemA.currency "USD")
        (jsum ((aliceItems.filter fun it =>
            decide (it.parentId = some "A") && it.isRequired).map
          fun c => convertPrice ratesUSD c.price c.currency "USD")) :=
  (groupTotal_correct ratesUSD "USD" aliceItems "A").2.1 itemA (by rfl)

/-- C2. `removeItem` removes from the matching person's items exactly the
item with the given id and the items whose `parentId` is that id (the
result has count `0` for those and the unchanged count for every other
item), keeping the remaining items in relative order (a sublist); removing
A from the Alice scenario leaves her collection empty. -/
theorem removeItem_correct (people : List Person) (pid iid : String) :
    List.Forall₂ (fun p q => p.id = pid →
        q.items.Sublist p.items ∧
        ∀ x : WishlistItem, q.items.count x =
          if x.id = iid ∨ x.parentId = some iid then 0 else p.items.count x)
      people (removeItem people pid iid) ∧
    removeItem [alice] "p1" "A" = [{ id := "p1", name := "Alice", items := [] }] := by
  constructor
  · rw [removeItem, List.forall₂_map_right_iff, List.forall₂_same]
    intro p _ hid
    rw [if_pos hid]
    refine ⟨List.filter_sublist _, fun x => ?_⟩
    rw [count_filter_bool]
    by_cases h : x.id = iid ∨ x.parentId = some iid
    · rw [if_neg, if_pos h]
      rcases h with h | h <;> simp [h]
    · push_neg at h
      rw [if_pos, if_neg (by push_neg; exact h)]
      simp [h.1, h.2]
  · decide

/-- Witness for C2: the exact-removal property holds on the Alice scenario. -/
theorem removeItem_correct_witness :
    List.Forall₂ (fun p q => p.id = "p1" →
        q.items.Sublist p.items ∧
        ∀ x : WishlistItem, q.items.count x =
          if x.id = "A" ∨ x.parentId = some "A" then 0 else p.items.count x)
      [alice] (removeItem [alice] "p1" "A") :=
  (removeItem_correct [alice] "p1" "A").1

/-- Counterexample to C3 as stated: with an empty rate table the fallback
branch is taken, but `0.125` comes back as `0.13` (`toFixed(2)` rounds),
not as the original amount. -/
theorem convert_missing_cex :
    (fun _ => (none : Option ℚ)) "USD" = none ∧
    convertPrice (fun _ => none) (JNum.num (1 / 8)) "USD" "EUR" =
      JNum.num (13 / 100) ∧
    ¬ convertPrice (fun _ => none) (JNum.num (1 / 8)) "USD" "EUR" =
        JNum.num (1 / 8) := by
  have he : convertPrice (fun _ => none) (JNum.num (1 / 8)) "USD" "EUR" =
      JNum.num (round2 (1 / 8)) := by
    rw [convertPrice_missing (Or.inl rfl)]; rfl
  have hr : round2 ((1 : ℚ) / 8) = 13 / 100 := by norm_num [round2]
  refine ⟨rfl, by rw [he, hr], ?_⟩
  rw [he, hr]
  simp only [JNum.num.injEq]
  norm_num

/-- C3 (amended). When either currency is absent from the rate table,
`convertPrice` never fails and returns the amount rounded to a whole number
of hundredths (`toFixed(2)`); in particular the amount comes back unchanged
whenever it already is a whole number of hundredths. -/
theorem convert_missing_rounds (rates : String → Option ℚ) (a : ℚ)
    (c₁ c₂ : String) (h : rates c₁ = none ∨ rates c₂ = none) :
    convertPrice rates (JNum.num a) c₁ c₂ = JNum.num (round2 a) ∧
    ∀ n : ℤ, a = (n : ℚ) / 100 →
      convertPrice rates (JNum.num a) c₁ c₂ = JNum.num a := by
  have he : convertPrice rates (JNum.num a) c₁ c₂ = JNum.num (round2 a) := by
    rw [convertPrice_missing h]; rfl
  exact ⟨he, fun n hn => by rw [he, hn, round2_cents]⟩

/-- Witness for C3 (amended): `0.75` survives the fallback unchanged. -/
theorem convert_missing_rounds_witness :
    convertPrice (fun _ => none) (JNum.num (3 / 4)) "USD" "EUR" =
      JNum.num (3 / 4) :=
  (convert_missing_rounds (fun _ => none) (3 / 4) "USD" "EUR"
    (Or.inl rfl)).2 75 (by norm_num)

/-- Counterexample to C4 as stated: with `USD` present at rate `1`,
converting `0.125` from `USD` to `USD` yields `0.13` (`toFixed(2)`), not
the original amount. -/
theorem convert_identity_cex :
    ratesUSD "USD" = some 1 ∧
    convertPrice ratesUSD (JNum.num (1 / 8)) "USD" "USD" =
      JNum.num (13 / 100) ∧
    ¬ convertPrice ratesUSD (JNum.num (1 / 8)) "USD" "USD" =
        JNum.num (1 / 8) := by
  have he := convertPrice_self ratesUSD "USD" (1 / 8)
  have hr : round2 ((1 : ℚ) / 8) = 13 / 100 := by norm_num [round2]
  refine ⟨rfl, by rw [he, hr], ?_⟩
  rw [he, hr]
  simp only [JNum.num.injEq]
  norm_num

/-- C4 (amended). For a currency present in the rate table, converting an
amount from that currency to itself returns the amount rounded to a whole
number of hundredths; it is the identity exactly on whole-hundredth
amounts. -/
theorem convert_self_identity (rates : String → Option ℚ) (c : String)
    (a : ℚ) (_present : (rates c).isSome) :
    convertPrice rates (JNum.num a) c c = JNum.num (round2 a) ∧
    ∀ n : ℤ, a = (n : ℚ) / 100 →
      convertPrice rates (JNum.num a) c c = JNum.num a := by
  have he := convertPrice_self rates c a
  exact ⟨he, fun n hn => by rw [he, hn, round2_cents]⟩

/-- Witness for C4 (amended): `1.50` converted USD→USD with `{USD: 1}` is
unchanged. -/
theorem convert_self_identity_witness :
    convertPrice ratesUSD (JNum.num (3 / 2)) "USD" "USD" = JNum.num (3 / 2) :=
  (convert_self_identity ratesUSD "USD" (3 / 2) (by rfl)).2 150 (by norm_num)

/-- C9. A zero rate is falsy for the guard `!rates[from] || !rates[to]`, so
`convertPrice` takes the fallback branch — the same result as if the
currency were missing from the table — and the division inside the
conversion formula is never performed with a zero divisor. -/
theorem convert_zero_rate_correct (rates : String → Option ℚ) (p : JNum)
    (c₁ c₂ : String) (h : rates c₁ = some 0 ∨ rates c₂ = some 0) :
    convertPrice rates p c₁ c₂ = round2J p ∧
    convertPrice rates p c₁ c₂ = convertPrice (fun _ => none) p c₁ c₂ := by
  have he := convertPrice_zero_rate h p
  exact ⟨he, by rw [he, convertPrice_missing (Or.inl rfl)]⟩

/-- Witness for C9: a table with `USD ↦ 0`. -/
theorem convert_zero_rate_correct_witness :
    convertPrice (fun c => if c = "USD" then some 0 else some 1)
        (JNum.num 5) "USD" "EUR" = JNum.num 5 := by
  rw [(convert_zero_rate_correct (fun c => if c = "USD" then some 0 else some 1)
    (JNum.num 5) "USD" "EUR" (Or.inl rfl)).1]
  show JNum.num (round2 5) = JNum.num 5
  norm_num [round2]

/-- The editing form of the C7 scenario: price text `"abc"`, which
`parseFloat` cannot parse. -/
def editAbc : EditingItem :=
  { id := "A", name := "Bike", price := "abc", currency := "USD", link := "",
    parentId := none, isRequired := false, tempCurrency := "USD" }

/-- C7. `saveEditedItem` replaces the matching person's matching item by the
edited values, with the price parsed from its text form (`parseFloat`) and
the currency taken from the form's currency selector; unparsable price text
produces a `NaN` price that is stored without rejection, as the concrete
`"abc"` scenario shows. -/
theorem saveEditedItem_correct (people : List Person) (pid iid : String)
    (e : EditingItem) (h : ¬ iid = "") :
    List.Forall₂ (fun p q => p.id = pid →
        q.items = p.items.map fun it =>
          if it.id = iid then
            { id := e.id, name := e.name, price := jsParseFloat e.price,
              currency := e.tempCurrency, link := e.link,
              parentId := e.parentId, isRequired := e.isRequired }
          else it)
      people (saveEditedItem people pid (some iid) (some e)) ∧
    saveEditedItem [alice] "p1" (some "A") (some editAbc) =
      [{ id := "p1", name := "Alice", items :=
          [{ id := "A", name := "Bike", price := JNum.nan, currency := "USD",
             link := "", parentId := none, isRequired := false },
           itemB, itemC] }] := by
  constructor
  · rw [saveEditedItem]
    simp only [if_neg h]
    rw [List.forall₂_map_right_iff, List.forall₂_same]
    intro p _ hid
    rw [if_pos hid]
  · decide

/-- Witness for C7: the replacement equation on the Alice scenario with the
unparsable price text `"abc"`. -/
theorem saveEditedItem_correct_witness :
    List.Forall₂ (fun p q => p.id = "p1" →
        q.items = p.items.map fun it =>
          if it.id = "A" then
            { id := editAbc.id, name := editAbc.name,
              price := jsParseFloat editAbc.price,
              currency := editAbc.tempCurrency, link := editAbc.link,
              parentId := editAbc.parentId, isRequired := editAbc.isRequired }
          else it)
      [alice] (saveEditedItem [alice] "p1" (some "A") (some editAbc)) :=
  (saveEditedItem_correct [alice] "p1" "A" editAbc (by decide)).1

/-! ### Helper lemmas for the list-shaped operations -/

theorem mapOption_of_forall₂ {α β : Type _} {f : α → Option β} {l : List α}
    {l2 : List β} (h : List.Forall₂ (fun a b => f a = some b) l l2) :
    mapOption f l = some l2 := by
  induction h with
  | nil => rfl
  | cons ha _ ih => simp [mapOption, ha, ih]

theorem forall₂_of_mapOption {α β : Type _} {f : α → Option β} :
    ∀ {l : List α} {l2 : List β}, mapOption f l = some l2 →
      List.Forall₂ (fun a b => f a = some b) l l2 := by
  intro l
  induction l with
  | nil =>
    intro l2 h
    simp only [mapOption, Option.some.injEq] at h
    subst h
    exact List.Forall₂.nil
  | cons a l ih =>
    intro l2 h
    rw [mapOption] at h
    cases hfa : f a with
    | none => rw [hfa] at h; cases h
    | some b =>
      rw [hfa] at h
      cases hml : mapOption f l with
      | none => rw [hml] at h; cases h
      | some bs =>
        rw [hml] at h
        simp only [Option.some.injEq] at h
        subst h
        exact List.Forall₂.cons hfa (ih hml)

theorem map_eq_self_of {α : Type _} {f : α → α} {l : List α}
    (h : ∀ a ∈ l, f a = a) : l.map f = l := by
  rw [List.map_congr_left h]
  simp

/-- A list is a permutation of any of its elements consed onto the
erasure of that element's position. -/
theorem perm_cons_eraseIdx {α : Type _} :
    ∀ (l : List α) (i : Nat) (x : α), l[i]? = some x →
      l.Perm (x :: l.eraseIdx i) := by
  intro l
  induction l with
  | nil => intro i x h; cases h
  | cons a t ih =>
    intro i x h
    cases i with
    | zero =>
      simp only [List.getElem?_cons_zero, Option.some.injEq] at h
      subst h
      exact List.Perm.refl _
    | succ i =>
      rw [List.getElem?_cons_succ] at h
      rw [List.eraseIdx_cons_succ]
      exact ((ih i x h).cons a).trans (List.Perm.swap x a _)

/-- Inserting within bounds is a permutation of consing. -/
theorem perm_insertIdx {α : Type _} :
    ∀ (l : List α) (n : Nat) (a : α), n ≤ l.length →
      (l.insertIdx n a).Perm (a :: l) := by
  intro l
  induction l with
  | nil =>
    intro n a h
    have h0 : n = 0 := Nat.le_zero.mp h
    subst h0
    exact List.Perm.refl _
  | cons b t ih =>
    intro n a h
    cases n with
    | zero => exact List.Perm.refl _
    | succ n =>
      rw [List.insertIdx_succ_cons]
      exact ((ih n a (Nat.le_of_succ_le_succ h)).cons b).trans (List.Perm.swap a b _)

/-- C8. Each per-person operation (`addItem`, `removeItem`,
`saveEditedItem`, `sortItemsByPrice`, `handleDragEnd`) leaves every person
whose id differs from the targeted id unchanged, and leaves the whole list
unchanged when no person carries the targeted id. -/
theorem frame_correct (rates : String → Option ℚ) (disp : String)
    (people : List Person) (pid : String) :
    (∀ iid, List.Forall₂ (fun p q => ¬ p.id = pid → q = p)
        people (removeItem people pid iid)) ∧
    (∀ newId form, List.Forall₂ (fun p q => ¬ p.id = pid → q = p)
        people (addItem people pid newId form)) ∧
    (∀ eid e, List.Forall₂ (fun p q => ¬ p.id = pid → q = p)
        people (saveEditedItem people pid eid e)) ∧
    (∀ dir, List.Forall₂ (fun p q => ¬ p.id = pid → q = p)
        people (sortItemsByPrice rates disp people dir pid).1) ∧
    (∀ res people2, handleDragEnd people res pid = some people2 →
        List.Forall₂ (fun p q => ¬ p.id = pid → q = p) people people2) ∧
    ((∀ p ∈ people, ¬ p.id = pid) →
      (∀ iid, removeItem people pid iid = people) ∧
      (∀ newId form, addItem people pid newId form = people) ∧
      (∀ eid e, saveEditedItem people pid eid e = people) ∧
      (∀ dir, (sortItemsByPrice rates disp people dir pid).1 = people) ∧
      (∀ res, handleDragEnd people res pid = some people)) := by
  have hrefl : List.Forall₂ (fun p q => ¬ p.id = pid → q = p) people people :=
    List.forall₂_same.mpr fun _ _ _ => rfl
  have hmap : ∀ f : Person → Person,
      List.Forall₂ (fun p q => ¬ p.id = pid → q = p)
        people (people.map fun p => if p.id = pid then f p else p) := by
    intro f
    rw [List.forall₂_map_right_iff, List.forall₂_same]
    intro p _ hne
    rw [if_neg hne]
  have hsave : ∀ eid e, List.Forall₂ (fun p q => ¬ p.id = pid → q = p)
      people (saveEditedItem people pid eid e) := by
    intro eid e
    cases e with
    | none => cases eid <;> exact hrefl
    | some e0 =>
      cases eid with
      | none => exact hrefl
      | some eid0 =>
        rw [saveEditedItem]
        by_cases h0 : eid0 = ""
        · rw [if_pos h0]; exact hrefl
        · rw [if_neg h0]; exact hmap _
  refine ⟨fun iid => hmap _, fun newId form => hmap _, hsave, fun dir => hmap _,
    ?_, ?_⟩
  · intro res people2 h
    rw [handleDragEnd] at h
    cases hd : res.destination with
    | none =>
      rw [hd] at h
      simp only [Option.some.injEq] at h
      subst h
      exact hrefl
    | some dst =>
      rw [hd] at h
      refine (forall₂_of_mapOption h).imp ?_
      intro p q hpq hne
      rw [if_neg hne, Option.some.injEq] at hpq
      exact hpq.symm
  · intro hnone
    have hmapid : ∀ f : Person → Person,
        (people.map fun p => if p.id = pid then f p else p) = people := by
      intro f
      exact map_eq_self_of fun p hp => if_neg (hnone p hp)
    have hsaveid : ∀ eid e, saveEditedItem people pid eid e = people := by
      intro eid e
      cases e with
      | none => cases eid <;> rfl
      | some e0 =>
        cases eid with
        | none => rfl
        | some eid0 =>
          rw [saveEditedItem]
          by_cases h0 : eid0 = ""
          · rw [if_pos h0]
          · rw [if_neg h0]; exact hmapid _
    refine ⟨fun iid => hmapid _, fun newId form => hmapid _, hsaveid,
      fun dir => hmapid _, ?_⟩
    intro res
    rw [handleDragEnd]
    cases hd : res.destination with
    | none => rfl
    | some dst =>
      refine mapOption_of_forall₂ (List.forall₂_same.mpr fun p hp => ?_)
      rw [if_neg (hnone p hp)]

/-- Witness for C8: a target id no person carries leaves the state intact. -/
theorem frame_correct_witness :
    removeItem [alice] "zzz" "A" = [alice] ∧
    (sortItemsByPrice ratesUSD "USD" [alice] SortDir.asc "zzz").1 = [alice] ∧
    handleDragEnd [alice] { source := 0, destination := some 1 } "zzz" =
      some [alice] := by
  have h := (frame_correct ratesUSD "USD" [alice] "zzz").2.2.2.2.2 (by decide)
  exact ⟨h.1 "A", h.2.2.2.1 SortDir.asc, h.2.2.2.2 _⟩

/-- The per-person content of `handleDragEnd` on a successful drop: the
matching person's item at `src` ends up at `dst` with everything else in
order. Established by induction so that the index-validity hypothesis can
be consumed per member. -/
theorem handleDrag_aux (pid : String) (src dst : Nat) :
    ∀ people : List Person,
      (∀ p ∈ people, p.id = pid → src < p.items.length ∧ dst < p.items.length) →
      ∃ people2,
        mapOption (fun person =>
          if person.id = pid then
            (spliceMove person.items src dst).map
              fun its => { person with items := its }
          else some person) people = some people2 ∧
        List.Forall₂ (fun p q => p.id = pid →
          ∃ x, p.items[src]? = some x ∧
            q.items = (p.items.eraseIdx src).insertIdx dst x ∧
            q.items[dst]? = some x ∧
            q.items.Perm p.items ∧
            q.items.eraseIdx dst = p.items.eraseIdx src) people people2 := by
  intro people
  induction people with
  | nil => exact fun _ => ⟨[], rfl, List.Forall₂.nil⟩
  | cons p t ih =>
    intro hvalid
    obtain ⟨t2, ht2, hrel⟩ := ih fun q hq => hvalid q (List.mem_cons_of_mem p hq)
    by_cases hid : p.id = pid
    · obtain ⟨hsrc, hdst⟩ := hvalid p (List.mem_cons_self p t) hid
      have hx : p.items[src]? = some p.items[src] :=
        List.getElem?_eq_getElem hsrc
      have hlen : (p.items.eraseIdx src).length = p.items.length - 1 := by
        rw [List.length_eraseIdx, if_pos hsrc]
      have hdst1 : dst ≤ p.items.length - 1 := Nat.le_pred_of_lt hdst
      have hmin : min dst (p.items.length - 1) = dst := min_eq_left hdst1
      have hq : spliceMove p.items src dst =
          some ((p.items.eraseIdx src).insertIdx dst p.items[src]) := by
        rw [spliceMove, hx, hmin]
      refine ⟨{ p with items := (p.items.eraseIdx src).insertIdx dst p.items[src] } :: t2,
        ?_, ?_⟩
      · simp [mapOption, hid, hq, ht2]
      · refine List.Forall₂.cons (fun _ => ⟨p.items[src], hx, rfl, ?_, ?_, ?_⟩) hrel
        · have hlen2 : dst < ((p.items.eraseIdx src).insertIdx dst p.items[src]).length := by
            rw [List.length_insertIdx _ _ (hlen ▸ hdst1), hlen]
            omega
          rw [List.getElem?_eq_getElem hlen2,
            List.getElem_insertIdx_self _ _ _ (hlen ▸ hdst1)]
        · exact (perm_insertIdx _ _ _ (hlen ▸ hdst1)).trans
            (perm_cons_eraseIdx p.items src p.items[src] hx).symm
        · rw [List.eraseIdx_insertIdx]
    · refine ⟨p :: t2, ?_, List.Forall₂.cons (fun h => absurd h hid) hrel⟩
      simp [mapOption, hid, ht2]

/-- C5. `handleDragEnd` is a no-op on a cancelled drop
(`destination` absent), and on a drop with valid indices it moves the
matching person's item from `source` to the destination index: the moved
item sits at the destination, the items are a permutation of the original
ones, and erasing the moved item from the result gives the same sequence as
erasing it from the input (relative order of all other items preserved). -/
theorem handleDragEnd_correct (people : List Person) (res : DragResult)
    (pid : String) :
    (res.destination = none → handleDragEnd people res pid = some people) ∧
    ∀ dst, res.destination = some dst →
      (∀ p ∈ people, p.id = pid →
        res.source < p.items.length ∧ dst < p.items.length) →
      ∃ people2, handleDragEnd people res pid = some people2 ∧
        List.Forall₂ (fun p q => p.id = pid →
          ∃ x, p.items[res.source]? = some x ∧
            q.items = (p.items.eraseIdx res.source).insertIdx dst x ∧
            q.items[dst]? = some x ∧
            q.items.Perm p.items ∧
            q.items.eraseIdx dst = p.items.eraseIdx res.source)
          people people2 := by
  constructor
  · intro h
    rw [handleDragEnd, h]
  · intro dst hdst hvalid
    rw [handleDragEnd, hdst]
    exact handleDrag_aux pid res.source dst people hvalid

/-- Witness for C5: moving Alice's item A from position 0 to position 2. -/
theorem handleDragEnd_correct_witness :
    handleDragEnd [alice] { source := 0, destination := some 2 } "p1" =
      some [{ id := "p1", name := "Alice", items := [itemB, itemC, itemA] }] ∧
    List.Forall₂ (fun (p q : Person) => p.id = "p1" →
        ∃ x, p.items[0]? = some x ∧
          q.items = (p.items.eraseIdx 0).insertIdx 2 x ∧
          q.items[2]? = some x ∧
          q.items.Perm p.items ∧
          q.items.eraseIdx 2 = p.items.eraseIdx 0)
      [alice] [{ id := "p1", name := "Alice", items := [itemB, itemC, itemA] }] := by
  obtain ⟨p2, h2, hrel⟩ :=
    (handleDragEnd_correct [alice] { source := 0, destination := some 2 } "p1").2
      2 rfl (by decide)
  have hp2 : p2 = [{ id := "p1", name := "Alice", items := [itemB, itemC, itemA] }] := by
    have hc : handleDragEnd [alice] { source := 0, destination := some 2 } "p1" =
        some [{ id := "p1", name := "Alice", items := [itemB, itemC, itemA] }] := by
      decide
    rw [h2] at hc
    exact Option.some.inj hc
  subst hp2
  exact ⟨h2, hrel⟩

/-! ### Stable sorting by a rational key -/

/-- Comparison by a rational-valued key. -/
def keyLe {α : Type _} (k : α → ℚ) (a b : α) : Prop := k a ≤ k b

instance {α : Type _} (k : α → ℚ) : DecidableRel (keyLe k) :=
  fun a b => inferInstanceAs (Decidable (k a ≤ k b))

instance {α : Type _} (k : α → ℚ) : IsTotal α (keyLe k) :=
  ⟨fun a b => le_total (k a) (k b)⟩

instance {α : Type _} (k : α → ℚ) : IsTrans α (keyLe k) :=
  ⟨fun _ _ _ hab hbc => le_trans hab hbc⟩

theorem filter_orderedInsert_key_eq {α : Type _} (k : α → ℚ) (v : ℚ) (a : α)
    (h : k a = v) : ∀ m : List α,
      (m.orderedInsert (keyLe k) a).filter (fun x => decide (k x = v)) =
        a :: m.filter (fun x => decide (k x = v)) := by
  intro m
  induction m with
  | nil => simp [List.orderedInsert, h]
  | cons b t ih =>
    rw [List.orderedInsert]
    by_cases hab : keyLe k a b
    · rw [if_pos hab]
      simp [List.filter_cons, h]
    · rw [if_neg hab]
      have hbv : ¬ (k b = v) := fun hb => hab (le_of_eq (by rw [h, hb]))
      simp only [List.filter_cons, decide_eq_true_eq, if_neg hbv, ih]

theorem filter_orderedInsert_key_ne {α : Type _} (k : α → ℚ) (v : ℚ) (a : α)
    (h : ¬ k a = v) : ∀ m : List α,
      (m.orderedInsert (keyLe k) a).filter (fun x => decide (k x = v)) =
        m.filter (fun x => decide (k x = v)) := by
  intro m
  induction m with
  | nil => simp [List.orderedInsert, h]
  | cons b t ih =>
    rw [List.orderedInsert]
    by_cases hab : keyLe k a b
    · rw [if_pos hab]
      simp [List.filter_cons, h]
    · rw [if_neg hab]
      simp only [List.filter_cons, ih]

/-- A stable key-sort does not disturb the subsequence of any fixed key
value. -/
theorem filter_insertionSort_key {α : Type _} (k : α → ℚ) (v : ℚ) :
    ∀ l : List α,
      (l.insertionSort (keyLe k)).filter (fun x => decide (k x = v)) =
        l.filter (fun x => decide (k x = v)) := by
  intro l
  induction l with
  | nil => rfl
  | cons a t ih =>
    rw [List.insertionSort]
    by_cases ha : k a = v
    · rw [filter_orderedInsert_key_eq k v a ha, ih]
      simp [List.filter_cons, ha]
    · rw [filter_orderedInsert_key_ne k v a ha, ih]
      simp [List.filter_cons, ha]

/-- Two key-sorted lists whose per-key subsequences agree are equal:
uniqueness of stable sorting. -/
theorem eq_of_sorted_key_filters {α : Type _} (k : α → ℚ) :
    ∀ l₁ l₂ : List α, List.Sorted (keyLe k) l₁ → List.Sorted (keyLe k) l₂ →
      (∀ v, l₁.filter (fun x => decide (k x = v)) =
        l₂.filter (fun x => decide (k x = v))) → l₁ = l₂ := by
  intro l₁
  induction l₁ with
  | nil =>
    intro l₂ _ _ hf
    cases l₂ with
    | nil => rfl
    | cons b t₂ =>
      have hb := hf (k b)
      rw [List.filter_nil] at hb
      simp [List.filter_cons] at hb
  | cons a t₁ ih =>
    intro l₂ h₁ h₂ hf
    cases l₂ with
    | nil =>
      have hb := hf (k a)
      rw [List.filter_nil] at hb
      simp [List.filter_cons] at hb
    | cons b t₂ =>
      have hab : k a = k b := by
        rcases lt_trichotomy (k a) (k b) with hlt | heq | hgt
        · exfalso
          have hfa := hf (k a)
          have hR : (b :: t₂).filter (fun x => decide (k x = k a)) = [] := by
            rw [List.filter_eq_nil_iff]
            intro x hx
            have hbx : k b ≤ k x := by
              rcases List.mem_cons.mp hx with rfl | hx2
              · exact le_refl _
              · exact List.rel_of_sorted_cons h₂ x hx2
            simp only [decide_eq_true_eq]
            intro hxa
            rw [hxa] at hbx
            exact absurd hbx (not_le.mpr hlt)
          rw [hR] at hfa
          simp [List.filter_cons] at hfa
        · exact heq
        · exfalso
          have hfb := hf (k b)
          have hL : (a :: t₁).filter (fun x => decide (k x = k b)) = [] := by
            rw [List.filter_eq_nil_iff]
            intro x hx
            have hax : k a ≤ k x := by
              rcases List.mem_cons.mp hx with rfl | hx2
              · exact le_refl _
              · exact List.rel_of_sorted_cons h₁ x hx2
            simp only [decide_eq_true_eq]
            intro hxb
            rw [hxb] at hax
            exact absurd hax (not_le.mpr hgt)
          rw [hL] at hfb
          simp [List.filter_cons] at hfb
      have hfa := hf (k a)
      rw [List.filter_cons, List.filter_cons, if_pos (by simp),
        if_pos (by simp [hab])] at hfa
      have hhead : a = b := (List.cons.injEq _ _ _ _ ▸ hfa).1
      have htail : t₁.filter (fun x => decide (k x = k a)) =
          t₂.filter (fun x => decide (k x = k a)) :=
        (List.cons.injEq _ _ _ _ ▸ hfa).2
      subst hhead
      have htails : ∀ v, t₁.filter (fun x => decide (k x = v)) =
          t₂.filter (fun x => decide (k x = v)) := by
        intro v
        by_cases hv : v = k a
        · subst hv; exact htail
        · have hfv := hf v
          rw [List.filter_cons, List.filter_cons] at hfv
          rw [if_neg (by simp; exact fun hh => hv hh.symm),
            if_neg (by simp [← hab]; exact fun hh => hv hh.symm)] at hfv
          exact hfv
      rw [ih t₂ h₁.of_cons h₂.of_cons htails]

theorem orderedInsert_congr_rel {α : Type _} {r s : α → α → Prop}
    [DecidableRel r] [DecidableRel s] (a : α) :
    ∀ m : List α, (∀ b ∈ m, (r a b ↔ s a b)) →
      m.orderedInsert r a = m.orderedInsert s a := by
  intro m
  induction m with
  | nil => intro _; rfl
  | cons b t ih =>
    intro h
    rw [List.orderedInsert, List.orderedInsert]
    by_cases hrb : r a b
    · rw [if_pos hrb, if_pos ((h b (List.mem_cons_self b t)).mp hrb)]
    · rw [if_neg hrb, if_neg (fun hs => hrb ((h b (List.mem_cons_self b t)).mpr hs)),
        ih fun c hc => h c (List.mem_cons_of_mem b hc)]

/-- `insertionSort` only consults the relation on pairs from the list. -/
theorem insertionSort_congr_rel {α : Type _} {r s : α → α → Prop}
    [DecidableRel r] [DecidableRel s] :
    ∀ l : List α, (∀ a ∈ l, ∀ b ∈ l, (r a b ↔ s a b)) →
      l.insertionSort r = l.insertionSort s := by
  intro l
  induction l with
  | nil => intro _; rfl
  | cons a t ih =>
    intro h
    rw [List.insertionSort, List.insertionSort,
      ih fun x hx y hy => h x (List.mem_cons_of_mem a hx) y (List.mem_cons_of_mem a hy)]
    refine orderedInsert_congr_rel a _ fun b hb => ?_
    exact h a (List.mem_cons_self a t) b
      (List.mem_cons_of_mem a ((List.mem_insertionSort s).mp hb))

/-- The rational sort key of `sortItemsByPrice`
(the numeric value of the converted, rounded price). -/
def qkey (rates : String → Option ℚ) (disp : String) (it : WishlistItem) : ℚ :=
  jval (convKey rates disp it)

theorem convKey_num {rates : String → Option ℚ} {disp : String}
    {it : WishlistItem} (h : ¬ it.price = JNum.nan) :
    convKey rates disp it = JNum.num (qkey rates disp it) := by
  cases hp : it.price with
  | nan => exact absurd hp h
  | num q =>
    simp only [qkey, convKey, hp]
    exact convertPrice_num rates q it.currency disp

theorem sortLe_asc_iff {rates : String → Option ℚ} {disp : String}
    {a b : WishlistItem} (ha : ¬ a.price = JNum.nan) (hb : ¬ b.price = JNum.nan) :
    (sortLe rates disp SortDir.asc a b = true ↔ keyLe (qkey rates disp) a b) := by
  rw [sortLe, convKey_num ha, convKey_num hb]
  simp [jsub, cmpLe, keyLe, sub_nonpos]

theorem sortLe_desc_iff {rates : String → Option ℚ} {disp : String}
    {a b : WishlistItem} (ha : ¬ a.price = JNum.nan) (hb : ¬ b.price = JNum.nan) :
    (sortLe rates disp SortDir.desc a b = true ↔
      keyLe (fun it => -(qkey rates disp it)) a b) := by
  rw [sortLe, convKey_num ha, convKey_num hb]
  simp [jsub, cmpLe, keyLe, sub_nonpos]

theorem sort_asc_of_numeric {rates : String → Option ℚ} {disp : String}
    {l : List WishlistItem} (h : ∀ it ∈ l, ¬ it.price = JNum.nan) :
    l.insertionSort (fun a b => sortLe rates disp SortDir.asc a b = true) =
      l.insertionSort (keyLe (qkey rates disp)) :=
  insertionSort_congr_rel l fun a ha b hb => sortLe_asc_iff (h a ha) (h b hb)

theorem sort_desc_of_numeric {rates : String → Option ℚ} {disp : String}
    {l : List WishlistItem} (h : ∀ it ∈ l, ¬ it.price = JNum.nan) :
    l.insertionSort (fun a b => sortLe rates disp SortDir.desc a b = true) =
      l.insertionSort (keyLe fun it => -(qkey rates disp it)) :=
  insertionSort_congr_rel l fun a ha b hb => sortLe_desc_iff (h a ha) (h b hb)

/-- Ascending, then descending, then ascending stable key-sorts give back
the first ascending sort. -/
theorem triple_sort_key {α : Type _} (k : α → ℚ) (l : List α) :
    ((((l.insertionSort (keyLe k)).insertionSort
        (keyLe fun x => -(k x))).insertionSort (keyLe k))) =
      l.insertionSort (keyLe k) := by
  refine eq_of_sorted_key_filters k _ _
    (List.sorted_insertionSort _ _) (List.sorted_insertionSort _ _) ?_
  intro v
  rw [filter_insertionSort_key]
  have hswap : ∀ m : List α, m.filter (fun x => decide (k x = v)) =
      m.filter (fun x => decide (-(k x) = -v)) := by
    intro m
    refine List.filter_congr fun x _ => ?_
    rw [decide_eq_decide]
    exact neg_inj.symm
  rw [hswap, filter_insertionSort_key (fun x => -(k x)) (-v), ← hswap]

theorem numeric_insertionSort {l : List WishlistItem}
    (h : ∀ it ∈ l, ¬ it.price = JNum.nan)
    (r : WishlistItem → WishlistItem → Prop) [DecidableRel r] :
    ∀ it ∈ l.insertionSort r, ¬ it.price = JNum.nan :=
  fun it hit => h it ((List.mem_insertionSort r).mp hit)

/-- On NaN-free items the model's three sorts asc–desc–asc reproduce the
first ascending sort. -/
theorem sorted_items_cycle {rates : String → Option ℚ} {disp : String}
    {l : List WishlistItem} (h : ∀ it ∈ l, ¬ it.price = JNum.nan) :
    ((l.insertionSort (fun a b => sortLe rates disp SortDir.asc a b = true)).insertionSort
        (fun a b => sortLe rates disp SortDir.desc a b = true)).insertionSort
      (fun a b => sortLe rates disp SortDir.asc a b = true) =
    l.insertionSort (fun a b => sortLe rates disp SortDir.asc a b = true) := by
  rw [sort_asc_of_numeric h]
  have h1 := numeric_insertionSort h (keyLe (qkey rates disp))
  rw [sort_desc_of_numeric h1]
  have h2 := numeric_insertionSort h1 (keyLe fun it => -(qkey rates disp it))
  rw [sort_asc_of_numeric h2]
  exact triple_sort_key (qkey rates disp) l

/-- After the descending sort the matched items are sorted by
non-increasing key. -/
theorem sorted_desc_key {rates : String → Option ℚ} {disp : String}
    {l : List WishlistItem} (h : ∀ it ∈ l, ¬ it.price = JNum.nan) :
    ((l.insertionSort (fun a b => sortLe rates disp SortDir.asc a b = true)).insertionSort
        (fun a b => sortLe rates disp SortDir.desc a b = true)).Sorted
      (fun a b => qkey rates disp b ≤ qkey rates disp a) := by
  have h1 := numeric_insertionSort h (keyLe (qkey rates disp))
  rw [sort_asc_of_numeric h, sort_desc_of_numeric h1]
  have hs := List.sorted_insertionSort (keyLe fun it => -(qkey rates disp it))
    (l.insertionSort (keyLe (qkey rates disp)))
  exact hs.imp fun hab => by
    simpa [keyLe] using hab

/-- C10. `sortItemsByPrice` only permutes the matched person's item list:
every person keeps their id and name, and the resulting items are a
permutation of the previous ones — no item is added, dropped, or
modified. -/
theorem sort_permutation (rates : String → Option ℚ) (disp : String)
    (people : List Person) (dir : SortDir) (pid : String) :
    List.Forall₂ (fun p q => q.id = p.id ∧ q.name = p.name ∧ q.items.Perm p.items)
      people (sortItemsByPrice rates disp people dir pid).1 := by
  dsimp only [sortItemsByPrice]
  rw [List.forall₂_map_right_iff, List.forall₂_same]
  intro p _
  by_cases hid : p.id = pid
  · rw [if_pos hid]
    exact ⟨rfl, rfl, List.perm_insertionSort _ _⟩
  · rw [if_neg hid]
    exact ⟨rfl, rfl, List.Perm.refl _⟩

/-- Bob's first item of the sort-toggle scenario: 1 USD. -/
def bobItem1 : WishlistItem :=
  { id := "i1", name := "Mug", price := JNum.num 1, currency := "USD",
    link := "", parentId := none, isRequired := false }

/-- Bob's second item of the sort-toggle scenario: 2 USD. -/
def bobItem2 : WishlistItem :=
  { id := "i2", name := "Cap", price := JNum.num 2, currency := "USD",
    link := "", parentId := none, isRequired := false }

/-- The person "Bob" with items priced 1 USD and 2 USD. -/
def bob : Person := { id := "P", name := "Bob", items := [bobItem1, bobItem2] }

theorem convKey_bob1 : convKey ratesUSD "USD" bobItem1 = JNum.num 1 := by
  rw [convKey]
  show convertPrice ratesUSD (JNum.num 1) "USD" "USD" = JNum.num 1
  rw [convertPrice_self]
  norm_num [round2]

theorem convKey_bob2 : convKey ratesUSD "USD" bobItem2 = JNum.num 2 := by
  rw [convKey]
  show convertPrice ratesUSD (JNum.num 2) "USD" "USD" = JNum.num 2
  rw [convertPrice_self]
  norm_num [round2]

theorem sortLe_bob_asc12 : sortLe ratesUSD "USD" SortDir.asc bobItem1 bobItem2 = true := by
  rw [sortLe, convKey_bob1, convKey_bob2]
  show cmpLe (jsub (JNum.num 1) (JNum.num 2)) = true
  simp [jsub, cmpLe]

theorem sortLe_bob_desc12 : sortLe ratesUSD "USD" SortDir.desc bobItem1 bobItem2 = false := by
  rw [sortLe, convKey_bob1, convKey_bob2]
  show cmpLe (jsub (JNum.num 2) (JNum.num 1)) = false
  simp [jsub, cmpLe]

/-- Counterexample to C6 as stated: starting from the initial ascending
direction, the first invocation sorts Bob's items ascending, but the second
invocation sorts them descending — two invocations in succession do **not**
leave the items in ascending order, nor in the first invocation's order. -/
theorem sortToggle_cex :
    (sortStep ratesUSD "USD" "P" ([bob], SortDir.asc)).1 =
      [{ id := "P", name := "Bob", items := [bobItem1, bobItem2] }] ∧
    (sortStep ratesUSD "USD" "P"
        (sortStep ratesUSD "USD" "P" ([bob], SortDir.asc))).1 =
      [{ id := "P", name := "Bob", items := [bobItem2, bobItem1] }] ∧
    ¬ ((sortStep ratesUSD "USD" "P"
          (sortStep ratesUSD "USD" "P" ([bob], SortDir.asc))).1 =
        (sortStep ratesUSD "USD" "P" ([bob], SortDir.asc)).1) ∧
    ¬ [bobItem2, bobItem1].Sorted
        (fun a b => qkey ratesUSD "USD" a ≤ qkey ratesUSD "USD" b) := by
  have h1 : (sortStep ratesUSD "USD" "P" ([bob], SortDir.asc)).1 =
      [{ id := "P", name := "Bob", items := [bobItem1, bobItem2] }] := by
    dsimp only [sortStep, sortItemsByPrice, bob]
    simp [List.insertionSort, List.orderedInsert, sortLe_bob_asc12]
  have hstep1 : sortStep ratesUSD "USD" "P" ([bob], SortDir.asc) =
      ([{ id := "P", name := "Bob", items := [bobItem1, bobItem2] }], SortDir.desc) := by
    have h2 := h1
    dsimp only [sortStep, sortItemsByPrice, toggleDir] at h2 ⊢
    rw [h2]
  have h3 : (sortStep ratesUSD "USD" "P"
      (sortStep ratesUSD "USD" "P" ([bob], SortDir.asc))).1 =
      [{ id := "P", name := "Bob", items := [bobItem2, bobItem1] }] := by
    rw [hstep1]
    dsimp only [sortStep, sortItemsByPrice, toggleDir]
    simp [List.insertionSort, List.orderedInsert, sortLe_bob_desc12]
  have hq1 : qkey ratesUSD "USD" bobItem1 = 1 := by
    rw [qkey, convKey_bob1]; rfl
  have hq2 : qkey ratesUSD "USD" bobItem2 = 2 := by
    rw [qkey, convKey_bob2]; rfl
  refine ⟨h1, h3, ?_, ?_⟩
  · rw [h1, h3]
    decide
  · intro hs
    have := List.rel_of_sorted_cons hs bobItem1 (List.mem_singleton_self _)
    rw [hq1, hq2] at this
    norm_num at this

/-- C6 (amended). The sort direction toggles on every invocation of
`sortItemsByPrice` (ascending ↔ descending). Consequently, starting from
the initial ascending direction with NaN-free prices for the targeted
person, two successive invocations leave the items sorted **descending** by
converted price, and it is the *third* invocation that restores the first
invocation's ascending order (the whole state after three invocations
equals the state after one). -/
theorem sortToggle_correct (rates : String → Option ℚ) (disp : String)
    (people : List Person) (pid : String) :
    (sortItemsByPrice rates disp people SortDir.asc pid).2 = SortDir.desc ∧
    (sortItemsByPrice rates disp people SortDir.desc pid).2 = SortDir.asc ∧
    ((∀ p ∈ people, p.id = pid → ∀ it ∈ p.items, ¬ it.price = JNum.nan) →
      sortStep rates disp pid (sortStep rates disp pid (sortStep rates disp pid
          (people, SortDir.asc))) =
        sortStep rates disp pid (people, SortDir.asc) ∧
      ∀ q ∈ (sortStep rates disp pid
          (sortStep rates disp pid (people, SortDir.asc))).1,
        q.id = pid →
          q.items.Sorted (fun a b => qkey rates disp b ≤ qkey rates disp a)) := by
  refine ⟨rfl, rfl, fun hnum => ⟨?_, ?_⟩⟩
  · dsimp only [sortStep, sortItemsByPrice, toggleDir]
    rw [List.map_map, List.map_map]
    refine congrArg (fun l => (l, SortDir.desc)) (List.map_congr_left fun p hp => ?_)
    simp only [Function.comp_apply]
    by_cases hid : p.id = pid
    · simp only [hid, eq_self_iff_true, if_true]
      exact congrArg (Person.mk pid p.name) (sorted_items_cycle (hnum p hp hid))
    · simp [hid]
  · dsimp only [sortStep, sortItemsByPrice, toggleDir]
    rw [List.map_map]
    intro q hq hqid
    obtain ⟨p, hp, rfl⟩ := List.mem_map.mp hq
    by_cases hid : p.id = pid
    · simp only [Function.comp_apply, hid, eq_self_iff_true, if_true]
      exact sorted_desc_key (hnum p hp hid)
    · simp only [Function.comp_apply, if_neg hid] at hqid
      exact absurd hqid hid

/-- Witness for C6 (amended): on Bob's two-item list the direction toggles
and the third invocation reproduces the first. -/
theorem sortToggle_correct_witness :
    (sortItemsByPrice ratesUSD "USD" [bob] SortDir.asc "P").2 = SortDir.desc ∧
    sortStep ratesUSD "USD" "P" (sortStep ratesUSD "USD" "P"
        (sortStep ratesUSD "USD" "P" ([bob], SortDir.asc))) =
      sortStep ratesUSD "USD" "P" ([bob], SortDir.asc) := by
  have h := sortToggle_correct ratesUSD "USD" [bob] "P"
  exact ⟨h.1, (h.2.2 (by decide)).1⟩

end WishApp
